import Mathlib

/-!
# Cqueue (TemplateDataQueue.hpp): a shallow embedding

The class `Cqueue<T>` of `src/TemplateDataQueue.hpp` is embedded as a record of
its data members and one Lean function per member function.

* `std::queue<T>` is a `List T`, front of the queue first.
* The three atomics are plain fields: every member function runs to completion
  before the next one starts (the mutex serialises them).
* `m_maxLen` is an `unsigned int`: a `Nat`, reduced modulo `2 ^ 32` where a
  value is stored into it.
* The callback `clear` is a function pointer with side effects; its effect is a
  state transformer on a caller-chosen world `W`.
* `notify_one` and `notify_all` wake other threads and change no field.
* `condition_variable::wait(lock, pred)` is `while (!pred()) wait(lock);`. The
  states the waiting thread finds at its successive wake-ups are given as a
  list; the empty list is a thread that is never woken (no other thread runs).
-/

namespace BlockQueue

/-- The data members of `Cqueue<T>`. `m_DisableMaxLen = true` means that the
capacity check of `push` is active (the constructor sets it to `true` and
`disableMaxLen` sets it to `false`). -/
structure Cqueue (T W : Type) where
  m_Std_Queue : List T
  m_DisableMaxLen : Bool
  m_maxLen : Nat
  m_enable : Bool
  clear : Option (T → W → W)

/-- The width of `unsigned int`. -/
def UINT_MOD : Nat := 2 ^ 32

/-- The constructor `Cqueue::Cqueue()`; the queue member is default-constructed. -/
def newCqueue {T W : Type} : Cqueue T W :=
  { m_Std_Queue := [], m_DisableMaxLen := true, m_maxLen := 200, m_enable := true,
    clear := none }

/-- `Cqueue::disableQueue`. -/
def disableQueue {T W : Type} (s : Cqueue T W) : Cqueue T W :=
  { s with m_enable := false }

/-- `Cqueue::disableMaxLen`. -/
def disableMaxLen {T W : Type} (s : Cqueue T W) : Cqueue T W :=
  { s with m_DisableMaxLen := false }

/-- `Cqueue::setMaxLen(int len)`: the `int` is converted to `unsigned int`. -/
def setMaxLen {T W : Type} (s : Cqueue T W) (len : Int) : Cqueue T W :=
  { s with m_maxLen := (len % (UINT_MOD : Int)).toNat }

/-- `Cqueue::getMaxLen`. -/
def getMaxLen {T W : Type} (s : Cqueue T W) : Nat := s.m_maxLen

/-- `Cqueue::empty`. -/
def empty {T W : Type} (s : Cqueue T W) : Bool := s.m_Std_Queue.isEmpty

/-- `Cqueue::front`: `std::queue::front` on an empty queue is undefined
behaviour, which is `none` here. -/
def front {T W : Type} (s : Cqueue T W) : Option T := s.m_Std_Queue.head?

/-- `Cqueue::size`. -/
def size {T W : Type} (s : Cqueue T W) : Nat := s.m_Std_Queue.length

/-- What a call of `push` leaves behind: the returned flag, the queue, and the
lines written to `std::cout`. -/
structure PushOut (T W : Type) where
  ret : Bool
  next : Cqueue T W
  cout : List String

/-- `Cqueue::push`. -/
def push {T W : Type} (s : Cqueue T W) (data : T) : PushOut T W :=
  if !s.m_enable then
    { ret := false, next := s, cout := [] }
  else if s.m_DisableMaxLen && decide (s.m_Std_Queue.length > s.m_maxLen) then
    { ret := false, next := s,
      cout := ["[Cqueue][push] out of Max Queue length,drop data!"] }
  else
    { ret := true, next := { s with m_Std_Queue := s.m_Std_Queue ++ [data] }, cout := [] }

/-- The predicate of the wait in `pop`: `!m_enable || !m_Std_Queue.empty()`. -/
def waitPred {T W : Type} (s : Cqueue T W) : Bool :=
  !s.m_enable || !s.m_Std_Queue.isEmpty

/-- The loop `while (!pred()) wait(lock);` of `m_std_Cond.wait(lock, pred)`,
entered with the predicate false: the thread sleeps, and at each wake-up it
finds the next state of the list and tests the predicate there. `none`: the
thread is not woken again. -/
def condWait {T W : Type} : List (Cqueue T W) → Option (Cqueue T W)
  | [] => none
  | s :: rest => if waitPred s then some s else condWait rest

/-- What a call of `pop` leaves behind: the returned flag, the out-parameter
and the queue. -/
structure PopOut (T W : Type) where
  ret : Bool
  data : T
  next : Cqueue T W

/-- Lines 152-157 of `Cqueue::pop`: the check after the wait. -/
def popCheck {T W : Type} (s : Cqueue T W) (data : T) : PopOut T W :=
  match s.m_enable, s.m_Std_Queue with
  | true, x :: rest => { ret := true, data := x, next := { s with m_Std_Queue := rest } }
  | _, _ => { ret := false, data := data, next := s }

/-- `Cqueue::pop(T &data)`. `wakeups` are the states found at the wake-ups of
the wait, should the call wait; `none` is a call that never returns. -/
def pop {T W : Type} (wakeups : List (Cqueue T W)) (s : Cqueue T W) (data : T) :
    Option (PopOut T W) :=
  if !s.m_enable then
    some { ret := false, data := data, next := s }
  else if s.m_enable && s.m_Std_Queue.isEmpty then
    match condWait wakeups with
    | none => none
    | some s1 => some (popCheck s1 data)
  else
    some (popCheck s data)

/-- The `while` loop of `Cqueue::destroyAllData`: take the front element, remove
it, call the callback on it. Returns the queue that is left and the world. -/
def destroyLoop {T W : Type} (f : T → W → W) : List T → W → List T × W
  | [], w => ([], w)
  | x :: rest, w => destroyLoop f rest (f x w)

/-- `Cqueue::destroyAllData`. -/
def destroyAllData {T W : Type} (s : Cqueue T W) (w : W) : Cqueue T W × W :=
  match s.clear with
  | none => (s, w)
  | some f =>
    let r := destroyLoop f s.m_Std_Queue w
    ({ s with m_Std_Queue := r.1 }, r.2)

/-! ## Sequences of calls -/

/-- One call of a public member function by a single thread. `pop` carries
the value its out-parameter holds before the call. -/
inductive Op (T : Type) where
  | push (data : T)
  | pop (data : T)
  | front
  | size
  | empty
  | setMaxLen (len : Int)
  | getMaxLen
  | disableMaxLen
  | disableQueue
  | destroyAllData

/-- What a call returned. -/
inductive Ret (T : Type) where
  | pushed (ok : Bool)
  | popped (ok : Bool) (data : T)
  | value (x : T)
  | count (n : Nat)
  | flag (b : Bool)
  | done

/-- One call on the queue `c.1` in the world `c.2`, with no other thread
running. `none`: the call does not return (a `pop` that waits for ever) or is
undefined (`front` on an empty queue). -/
def exec {T W : Type} (o : Op T) (c : Cqueue T W × W) : Option (Ret T × Cqueue T W × W) :=
  match o with
  | .push x => some (.pushed (push c.1 x).ret, (push c.1 x).next, c.2)
  | .pop d =>
    match pop [] c.1 d with
    | none => none
    | some r => some (.popped r.ret r.data, r.next, c.2)
  | .front =>
    match front c.1 with
    | none => none
    | some x => some (.value x, c.1, c.2)
  | .size => some (.count (size c.1), c.1, c.2)
  | .empty => some (.flag (empty c.1), c.1, c.2)
  | .setMaxLen len => some (.done, setMaxLen c.1 len, c.2)
  | .getMaxLen => some (.count (getMaxLen c.1), c.1, c.2)
  | .disableMaxLen => some (.done, disableMaxLen c.1, c.2)
  | .disableQueue => some (.done, disableQueue c.1, c.2)
  | .destroyAllData => some (.done, (destroyAllData c.1 c.2).1, (destroyAllData c.1 c.2).2)

/-- A sequence of calls, one after the other; returns the calls with what each
returned, and the final queue and world. -/
def run {T W : Type} : List (Op T) → Cqueue T W × W → Option (List (Op T × Ret T) × Cqueue T W × W)
  | [], c => some ([], c)
  | o :: os, c =>
    match exec o c with
    | none => none
    | some (r, c1) =>
      match run os c1 with
      | none => none
      | some (h, c2) => some ((o, r) :: h, c2)

/-- The values of the pushes of a history that returned `true`, in order. -/
def pushedValues {T : Type} : List (Op T × Ret T) → List T
  | [] => []
  | (.push x, .pushed true) :: h => x :: pushedValues h
  | _ :: h => pushedValues h

/-- The values delivered by the pops of a history that returned `true`, in order. -/
def poppedValues {T : Type} : List (Op T × Ret T) → List T
  | [] => []
  | (.pop _, .popped true x) :: h => x :: poppedValues h
  | _ :: h => poppedValues h

/-- Pushes the values of a list one after the other; returns the flags the
pushes returned and the final queue. -/
def pushAll {T W : Type} : List T → Cqueue T W → List Bool × Cqueue T W
  | [], s => ([], s)
  | x :: xs, s =>
    let r := pushAll xs (push s x).next
    ((push s x).ret :: r.1, r.2)

/-- Calls `pop` `n` times with no other thread running, passing the
out-parameter on from call to call; returns what each call returned (flag and
out-parameter) and the final queue. -/
def popN {T W : Type} : Nat → Cqueue T W → T → Option (List (Bool × T) × Cqueue T W)
  | 0, s, _ => some ([], s)
  | n + 1, s, d =>
    match pop [] s d with
    | none => none
    | some r =>
      match popN n r.next r.data with
      | none => none
      | some (l, s2) => some ((r.ret, r.data) :: l, s2)

/-- Whether a call is a `push` or a `pop`. -/
def isPushPop {T : Type} : Op T → Bool
  | .push _ => true
  | .pop _ => true
  | _ => false

/-- The callback that records the element it is called on in a log. -/
def recordCall {T : Type} (x : T) (log : List T) : List T := log ++ [x]

/-- Whether a call is a `push`, a `pop` or a `disableQueue`. -/
def isPushPopDisable {T : Type} : Op T → Bool
  | .push _ => true
  | .pop _ => true
  | .disableQueue => true
  | _ => false

/-! ## Single calls -/

theorem push_ret_false_iff {T W : Type} (s : Cqueue T W) (x : T) :
    (push s x).ret = false ↔
      (s.m_enable = false ∨ (s.m_DisableMaxLen = true ∧ s.m_maxLen < s.m_Std_Queue.length)) := by
  unfold push
  cases hen : s.m_enable <;> cases henf : s.m_DisableMaxLen <;>
    by_cases hlt : s.m_maxLen < s.m_Std_Queue.length <;> simp [hlt]

theorem push_next_of_false {T W : Type} (s : Cqueue T W) (x : T)
    (h : (push s x).ret = false) : (push s x).next = s := by
  unfold push at h ⊢
  split
  · rfl
  · split
    · rfl
    · rename_i h1 h2
      simp [h1, h2] at h

theorem push_next_of_true {T W : Type} (s : Cqueue T W) (x : T)
    (h : (push s x).ret = true) :
    (push s x).next = { s with m_Std_Queue := s.m_Std_Queue ++ [x] } := by
  unfold push at h ⊢
  split
  · rename_i h1
    simp [h1] at h
  · split
    · rename_i h1 h2
      simp [h1, h2] at h
    · rfl

theorem push_enable_of_true {T W : Type} (s : Cqueue T W) (x : T)
    (h : (push s x).ret = true) : s.m_enable = true := by
  cases hen : s.m_enable
  · have := (push_ret_false_iff s x).2 (Or.inl hen)
    rw [this] at h
    cases h
  · rfl

/-! ## Consecutive pushes -/

/-- Pushes that all return `true` append their values, in order, and change
nothing else. -/
theorem pushAll_of_all_true {T W : Type} (xs : List T) (s : Cqueue T W)
    (h : ∀ b ∈ (pushAll xs s).1, b = true) :
    (pushAll xs s).2 = { s with m_Std_Queue := s.m_Std_Queue ++ xs } := by
  induction xs generalizing s with
  | nil => simp [pushAll]
  | cons x xs ih =>
    simp only [pushAll, List.mem_cons, forall_eq_or_imp] at h ⊢
    obtain ⟨h1, h2⟩ := h
    rw [ih _ h2, push_next_of_true s x h1]
    simp

/-- With the capacity check active, consecutive pushes on an enabled queue are
accepted as long as the size is at most `m_maxLen`, and rejected afterwards. -/
theorem pushAll_enforced {T W : Type} (xs : List T) (s : Cqueue T W)
    (hen : s.m_enable = true) (henf : s.m_DisableMaxLen = true) :
    pushAll xs s =
      (List.replicate (min xs.length (s.m_maxLen + 1 - s.m_Std_Queue.length)) true ++
        List.replicate (xs.length - (s.m_maxLen + 1 - s.m_Std_Queue.length)) false,
       { s with m_Std_Queue :=
          s.m_Std_Queue ++ xs.take (s.m_maxLen + 1 - s.m_Std_Queue.length) }) := by
  induction xs generalizing s with
  | nil => simp [pushAll]
  | cons x xs ih =>
    by_cases hlt : s.m_maxLen < s.m_Std_Queue.length
    · have hr : (push s x).ret = false := (push_ret_false_iff s x).2 (Or.inr ⟨henf, hlt⟩)
      have hn : (push s x).next = s := push_next_of_false s x hr
      have hz : s.m_maxLen + 1 - s.m_Std_Queue.length = 0 := by omega
      simp only [pushAll, hr, hn, ih s hen henf, hz]
      simp [List.replicate_succ]
    · have hr : (push s x).ret = true := by
        cases h : (push s x).ret
        · rcases (push_ret_false_iff s x).1 h with h1 | ⟨_, h2⟩
          · rw [hen] at h1; cases h1
          · exact absurd h2 hlt
        · rfl
      have hn := push_next_of_true s x hr
      obtain ⟨k, hk⟩ : ∃ k, s.m_maxLen + 1 - s.m_Std_Queue.length = k + 1 :=
        ⟨s.m_maxLen - s.m_Std_Queue.length, by omega⟩
      have hk1 : s.m_maxLen + 1 - (s.m_Std_Queue.length + 1) = k := by omega
      simp only [pushAll, hr, hn]
      rw [ih { s with m_Std_Queue := s.m_Std_Queue ++ [x] } hen henf]
      simp only [List.length_append, List.length_singleton, hk1, hk, List.length_cons,
        List.take_succ_cons, List.append_assoc, List.singleton_append]
      have hk2 : s.m_maxLen - s.m_Std_Queue.length = k := by omega
      rw [Nat.succ_min_succ, Nat.succ_sub_succ, List.replicate_succ]
      simp [hk2]

/-- With the capacity check off, every push on an enabled queue is accepted. -/
theorem pushAll_unenforced {T W : Type} (xs : List T) (s : Cqueue T W)
    (hen : s.m_enable = true) (henf : s.m_DisableMaxLen = false) :
    pushAll xs s =
      (List.replicate xs.length true, { s with m_Std_Queue := s.m_Std_Queue ++ xs }) := by
  induction xs generalizing s with
  | nil => simp [pushAll]
  | cons x xs ih =>
    have hr : (push s x).ret = true := by
      cases h : (push s x).ret
      · rcases (push_ret_false_iff s x).1 h with h1 | ⟨h1, _⟩
        · rw [hen] at h1; cases h1
        · rw [henf] at h1; cases h1
      · rfl
    have hn := push_next_of_true s x hr
    simp only [pushAll, hr, hn]
    rw [ih { s with m_Std_Queue := s.m_Std_Queue ++ [x] } hen henf]
    simp [List.replicate_succ]

/-- On an enabled queue whose `n` elements are `q`, `n` consecutive calls of
`pop` deliver `q` in order and leave the queue empty. -/
theorem popN_enabled {T W : Type} (q : List T) (s : Cqueue T W) (d : T)
    (hen : s.m_enable = true) (hq : s.m_Std_Queue = q) :
    popN q.length s d =
      some (q.map (fun x => (true, x)), { s with m_Std_Queue := [] }) := by
  induction q generalizing s d with
  | nil =>
    simp only [List.length_nil, popN, List.map_nil]
    rw [← hq]
  | cons x q ih =>
    have hp : pop [] s d = some { ret := true, data := x, next := { s with m_Std_Queue := q } } := by
      simp [pop, popCheck, hen, hq]
    simp only [List.length_cons, popN, hp, List.map_cons]
    rw [ih { s with m_Std_Queue := q } x hen rfl]

/-- A sequence of pushes run call by call ends in the queue of `pushAll`. -/
theorem run_pushes {T W : Type} (xs : List T) (s : Cqueue T W) (w : W) :
    ∃ h, run (xs.map Op.push) (s, w) = some (h, (pushAll xs s).2, w) := by
  induction xs generalizing s with
  | nil => exact ⟨[], rfl⟩
  | cons x xs ih =>
    obtain ⟨h, hh⟩ := ih (push s x).next
    refine ⟨(Op.push x, Ret.pushed (push s x).ret) :: h, ?_⟩
    simp only [List.map_cons, run, exec, hh, pushAll]

/-! ## The claims on single calls and on consecutive pushes -/

/-- C1 (FIFO). Values pushed one after the other onto an empty queue (a freshly
constructed one, whatever its capacity settings), every push returning `true`,
are delivered by the next `length xs` calls of `pop`: each returns `true` and
writes the values to the out-parameter in the order they were pushed, and the
queue is then empty and otherwise as it was. -/
theorem fifo_order {T W : Type} (s : Cqueue T W) (xs : List T) (d : T)
    (hempty : s.m_Std_Queue = [])
    (hall : ∀ b ∈ (pushAll xs s).1, b = true) :
    popN xs.length (pushAll xs s).2 d = some (xs.map (fun x => (true, x)), s) := by
  rw [pushAll_of_all_true xs s hall]
  cases xs with
  | nil =>
    simp only [List.length_nil, popN, List.map_nil, List.append_nil]
  | cons x xs =>
    have hen : s.m_enable = true :=
      push_enable_of_true s x (hall _ (by simp [pushAll]))
    rw [popN_enabled (x :: xs) { s with m_Std_Queue := s.m_Std_Queue ++ x :: xs } d hen
      (by simp [hempty])]
    simp [← hempty]

theorem fifo_order_witness :
    (newCqueue : Cqueue Nat Unit).m_Std_Queue = [] ∧
    (∀ b ∈ (pushAll [1, 2, 3] (newCqueue : Cqueue Nat Unit)).1, b = true) ∧
    popN 3 (pushAll [1, 2, 3] (newCqueue : Cqueue Nat Unit)).2 0 =
      some ([(true, 1), (true, 2), (true, 3)], newCqueue) :=
  ⟨rfl, by decide, fifo_order newCqueue [1, 2, 3] 0 rfl (by decide)⟩

/-- C2 (capacity). On an empty, enabled queue with the capacity check active and
`getMaxLen = N`, `k` consecutive pushes return `true` for the first
`min k (N + 1)` values and `false` for all later ones, and the queue then holds
exactly the first `N + 1` values pushed; for `k = N + 2` that is `N + 1`
times `true` followed by one `false`. -/
theorem capacity_off_by_one {T W : Type} (s : Cqueue T W) (N : Nat) (xs : List T)
    (hen : s.m_enable = true) (henf : s.m_DisableMaxLen = true)
    (hN : getMaxLen s = N) (hempty : s.m_Std_Queue = []) :
    (pushAll xs s).1 =
        List.replicate (min xs.length (N + 1)) true ++
          List.replicate (xs.length - (N + 1)) false ∧
      (pushAll xs s).2 = { s with m_Std_Queue := xs.take (N + 1) } ∧
      (xs.length = N + 2 →
        (pushAll xs s).1 = List.replicate (N + 1) true ++ [false]) := by
  unfold getMaxLen at hN
  subst hN
  have h := pushAll_enforced xs s hen henf
  rw [hempty] at h
  simp only [List.length_nil, Nat.sub_zero, List.nil_append] at h
  refine ⟨by rw [h], by rw [h], fun hk => ?_⟩
  rw [h, hk]
  have h1 : min (s.m_maxLen + 2) (s.m_maxLen + 1) = s.m_maxLen + 1 := by omega
  have h2 : s.m_maxLen + 2 - (s.m_maxLen + 1) = 1 := by omega
  rw [h1, h2]
  rfl

theorem capacity_off_by_one_witness :
    (setMaxLen (newCqueue : Cqueue Nat Unit) 2).m_enable = true ∧
      (setMaxLen (newCqueue : Cqueue Nat Unit) 2).m_DisableMaxLen = true ∧
      getMaxLen (setMaxLen (newCqueue : Cqueue Nat Unit) 2) = 2 ∧
      (pushAll [10, 11, 12, 13] (setMaxLen (newCqueue : Cqueue Nat Unit) 2)).1 =
        [true, true, true, false] ∧
      (pushAll [10, 11, 12, 13] (setMaxLen (newCqueue : Cqueue Nat Unit) 2)).2.m_Std_Queue =
        [10, 11, 12] :=
  ⟨rfl, rfl, by decide,
    (capacity_off_by_one (setMaxLen newCqueue 2) 2 [10, 11, 12, 13] rfl rfl (by decide) rfl).2.2
      rfl,
    congrArg Cqueue.m_Std_Queue
      (capacity_off_by_one (setMaxLen (newCqueue : Cqueue Nat Unit) 2) 2 [10, 11, 12, 13]
        rfl rfl (by decide) rfl).2.1⟩

/-- C3 (invariant I1), counterexample to `size <= getMaxLen`: 201 pushes on a
freshly constructed queue all take effect, so that with the capacity check
active the queue holds 201 elements while `getMaxLen` is 200. -/
theorem size_exceeds_maxLen :
    ∃ h s, run (List.replicate 201 (Op.push (0 : Nat))) ((newCqueue : Cqueue Nat Unit), ()) =
        some (h, s, ()) ∧
      s.m_DisableMaxLen = true ∧ size s = 201 ∧ getMaxLen s = 200 ∧
      ¬ size s ≤ getMaxLen s := by
  obtain ⟨h, hh⟩ := run_pushes (List.replicate 201 (0 : Nat)) (newCqueue : Cqueue Nat Unit) ()
  rw [List.map_replicate] at hh
  refine ⟨h, _, hh, ?_⟩
  rw [pushAll_enforced _ _ rfl rfl]
  simp only [newCqueue, size, getMaxLen, List.length_nil, List.nil_append, List.length_take,
    List.length_replicate]
  exact ⟨trivial, by decide, trivial, by decide⟩

/-- C4. `push` returns `false` exactly when the queue is disabled, or the
capacity check is active and the size is greater than `getMaxLen`; and a push
that returns `false` leaves the queue, with all its fields, as it was. -/
theorem push_fails_iff {T W : Type} (s : Cqueue T W) (x : T) :
    ((push s x).ret = false ↔
        (s.m_enable = false ∨ (s.m_DisableMaxLen = true ∧ getMaxLen s < size s))) ∧
      ((push s x).ret = false → (push s x).next = s) :=
  ⟨push_ret_false_iff s x, push_next_of_false s x⟩

/-- C6. On a disabled queue, empty or not, whatever the wake-ups, `pop` returns
`false` at once, leaves the out-parameter as it was and the queue unchanged. -/
theorem pop_disabled {T W : Type} (wakeups : List (Cqueue T W)) (s : Cqueue T W) (d : T)
    (h : s.m_enable = false) :
    pop wakeups s d = some { ret := false, data := d, next := s } := by
  simp [pop, h]

theorem pop_disabled_witness :
    (disableQueue (pushAll [7, 8] (newCqueue : Cqueue Nat Unit)).2).m_enable = false ∧
      pop [] (disableQueue (pushAll [7, 8] (newCqueue : Cqueue Nat Unit)).2) 0 =
        some { ret := false, data := 0,
               next := disableQueue (pushAll [7, 8] (newCqueue : Cqueue Nat Unit)).2 } :=
  ⟨rfl, pop_disabled [] (disableQueue (pushAll [7, 8] newCqueue).2) 0 rfl⟩

/-- C9. Calling `disableQueue` twice gives the same state as calling it once,
and one call changes the enabled flag only. -/
theorem disableQueue_idempotent {T W : Type} (s : Cqueue T W) :
    disableQueue (disableQueue s) = disableQueue s ∧
      (disableQueue s).m_enable = false ∧
      (disableQueue s).m_Std_Queue = s.m_Std_Queue ∧
      (disableQueue s).m_maxLen = s.m_maxLen ∧
      (disableQueue s).m_DisableMaxLen = s.m_DisableMaxLen ∧
      (disableQueue s).clear = s.clear :=
  ⟨rfl, rfl, rfl, rfl, rfl, rfl⟩

/-- C10. A freshly constructed queue is empty, enabled, has `getMaxLen = 200`,
the capacity check active and no callback; consecutive pushes on it return
`true` for the first 201 values and `false` from the 202nd on. -/
theorem constructor_defaults {T W : Type} :
    empty (newCqueue : Cqueue T W) = true ∧
      size (newCqueue : Cqueue T W) = 0 ∧
      (newCqueue : Cqueue T W).m_enable = true ∧
      getMaxLen (newCqueue : Cqueue T W) = 200 ∧
      (newCqueue : Cqueue T W).m_DisableMaxLen = true ∧
      (newCqueue : Cqueue T W).clear = none ∧
      ∀ xs : List T, (pushAll xs (newCqueue : Cqueue T W)).1 =
        List.replicate (min xs.length 201) true ++ List.replicate (xs.length - 201) false := by
  refine ⟨rfl, rfl, rfl, rfl, rfl, rfl, fun xs => ?_⟩
  rw [pushAll_enforced xs newCqueue rfl rfl]
  rfl

/-! ## Cleanup -/

/-- The loop of `destroyAllData` empties the queue and calls the callback on
every element, front first. -/
theorem destroyLoop_eq {T W : Type} (f : T → W → W) (q : List T) (w : W) :
    destroyLoop f q w = ([], q.foldl (fun acc x => f x acc) w) := by
  induction q generalizing w with
  | nil => rfl
  | cons x q ih => simp only [destroyLoop, ih, List.foldl_cons]

theorem foldl_recordCall {T : Type} (q log : List T) :
    q.foldl (fun acc x => recordCall x acc) log = log ++ q := by
  induction q generalizing log with
  | nil => simp
  | cons x q ih =>
    rw [List.foldl_cons, ih]
    simp [recordCall]

theorem destroyAllData_enable {T W : Type} (s : Cqueue T W) (w : W) :
    (destroyAllData s w).1.m_enable = s.m_enable := by
  unfold destroyAllData
  cases s.clear <;> rfl

/-- C7 (drain and destroy). With the recording callback registered,
`destroyAllData` (a total function: the loop ends after one round per element)
appends the elements of the queue to the log, front first and each once, and
leaves the queue empty with `m_maxLen`, the capacity flag, the enabled flag and
the callback as they were. -/
theorem destroyAllData_records {T : Type} (s : Cqueue T (List T)) (log : List T)
    (h : s.clear = some recordCall) :
    destroyAllData s log = ({ s with m_Std_Queue := [] }, log ++ s.m_Std_Queue) := by
  simp only [destroyAllData, h, destroyLoop_eq, foldl_recordCall]

theorem destroyAllData_records_witness :
    ({ m_Std_Queue := [4, 5, 6], m_DisableMaxLen := true, m_maxLen := 200, m_enable := false,
       clear := some recordCall } : Cqueue Nat (List Nat)).clear = some recordCall ∧
      destroyAllData
          ({ m_Std_Queue := [4, 5, 6], m_DisableMaxLen := true, m_maxLen := 200,
             m_enable := false, clear := some recordCall } : Cqueue Nat (List Nat)) [9] =
        ({ m_Std_Queue := [], m_DisableMaxLen := true, m_maxLen := 200, m_enable := false,
           clear := some recordCall }, [9, 4, 5, 6]) :=
  ⟨rfl, destroyAllData_records _ [9] rfl⟩

/-! ## Shutdown -/

/-- No call enables a disabled queue, and a push on a disabled queue returns
`false`. -/
theorem exec_disabled {T W : Type} (o : Op T) (s s1 : Cqueue T W) (w w1 : W) (r : Ret T)
    (hdis : s.m_enable = false) (he : exec o (s, w) = some (r, s1, w1)) :
    s1.m_enable = false ∧ ∀ x, o = Op.push x → r = Ret.pushed false := by
  cases o with
  | push x =>
    have hr : (push s x).ret = false := (push_ret_false_iff s x).2 (Or.inl hdis)
    have hn := push_next_of_false s x hr
    simp only [exec, hr, hn, Option.some.injEq, Prod.mk.injEq] at he
    obtain ⟨h1, h2, _⟩ := he
    subst h1 h2
    exact ⟨hdis, fun _ _ => rfl⟩
  | pop d =>
    simp only [exec, pop_disabled [] s d hdis, Option.some.injEq, Prod.mk.injEq] at he
    obtain ⟨_, h2, _⟩ := he
    subst h2
    exact ⟨hdis, fun _ hx => by cases hx⟩
  | front =>
    simp only [exec] at he
    cases hf : front s with
    | none => simp [hf] at he
    | some y =>
      simp only [hf, Option.some.injEq, Prod.mk.injEq] at he
      obtain ⟨_, h2, _⟩ := he
      subst h2
      exact ⟨hdis, fun _ hx => by cases hx⟩
  | destroyAllData =>
    simp only [exec, Option.some.injEq, Prod.mk.injEq] at he
    obtain ⟨_, h2, _⟩ := he
    subst h2
    exact ⟨by rw [destroyAllData_enable]; exact hdis, fun _ hx => by cases hx⟩
  | size | empty | getMaxLen | disableMaxLen | disableQueue | setMaxLen len =>
    simp only [exec, Option.some.injEq, Prod.mk.injEq] at he
    obtain ⟨_, h2, _⟩ := he
    subst h2
    exact ⟨by first | exact hdis | rfl, fun _ hx => by cases hx⟩

theorem run_disabled {T W : Type} (ops : List (Op T)) (s s1 : Cqueue T W) (w w1 : W)
    (h : List (Op T × Ret T)) (hdis : s.m_enable = false)
    (hr : run ops (s, w) = some (h, s1, w1)) :
    s1.m_enable = false ∧ ∀ e ∈ h, ∀ x, e.1 = Op.push x → e.2 = Ret.pushed false := by
  induction ops generalizing s w h with
  | nil =>
    simp only [run, Option.some.injEq, Prod.mk.injEq] at hr
    obtain ⟨h1, h2, _⟩ := hr
    subst h1 h2
    exact ⟨hdis, fun e he => by cases he⟩
  | cons o ops ih =>
    simp only [run] at hr
    cases he : exec o (s, w) with
    | none => simp [he] at hr
    | some res =>
      obtain ⟨r, s2, w2⟩ := res
      simp only [he] at hr
      cases hrest : run ops (s2, w2) with
      | none => simp [hrest] at hr
      | some res2 =>
        obtain ⟨h2, s3, w3⟩ := res2
        simp only [hrest, Option.some.injEq, Prod.mk.injEq] at hr
        obtain ⟨hh, hs, hw⟩ := hr
        subst hh hs hw
        obtain ⟨hd2, hp⟩ := exec_disabled o s s2 w w2 r hdis he
        obtain ⟨hd3, hall⟩ := ih s2 w2 h2 hd2 hrest
        refine ⟨hd3, fun e hmem x hx => ?_⟩
        rcases List.mem_cons.1 hmem with heq | hmem2
        · subst heq
          exact hp x hx
        · exact hall e hmem2 x hx

/-- C5 (shutdown is one-way). After `disableQueue`, whatever public calls
follow, the queue is still disabled, every push among those calls returned
`false`, and a further push returns `false` and leaves the queue, hence its
size, unchanged. -/
theorem disable_is_permanent {T W : Type} (s s1 : Cqueue T W) (w w1 : W) (ops : List (Op T))
    (h : List (Op T × Ret T)) (hr : run ops (disableQueue s, w) = some (h, s1, w1)) :
    s1.m_enable = false ∧
      (∀ e ∈ h, ∀ x, e.1 = Op.push x → e.2 = Ret.pushed false) ∧
      ∀ x, (push s1 x).ret = false ∧ (push s1 x).next = s1 ∧
        size (push s1 x).next = size s1 := by
  obtain ⟨hd, hall⟩ := run_disabled ops (disableQueue s) s1 w w1 h rfl hr
  refine ⟨hd, hall, fun x => ?_⟩
  have hret : (push s1 x).ret = false := (push_ret_false_iff s1 x).2 (Or.inl hd)
  have hn := push_next_of_false s1 x hret
  exact ⟨hret, hn, by rw [hn]⟩

theorem disable_is_permanent_witness :
    run [Op.push 1, Op.pop 0, Op.front, Op.setMaxLen 5, Op.disableMaxLen, Op.disableQueue,
          Op.destroyAllData, Op.size]
        (disableQueue (pushAll [3] (newCqueue : Cqueue Nat Unit)).2, ()) =
      some ([(Op.push 1, Ret.pushed false), (Op.pop 0, Ret.popped false 0),
             (Op.front, Ret.value 3), (Op.setMaxLen 5, Ret.done),
             (Op.disableMaxLen, Ret.done), (Op.disableQueue, Ret.done),
             (Op.destroyAllData, Ret.done), (Op.size, Ret.count 1)],
            { m_Std_Queue := [3], m_DisableMaxLen := false, m_maxLen := 5, m_enable := false,
              clear := none }, ()) ∧
    (push ({ m_Std_Queue := [3], m_DisableMaxLen := false, m_maxLen := 5, m_enable := false,
             clear := none } : Cqueue Nat Unit) 2).ret = false :=
  ⟨rfl,
    ((disable_is_permanent (pushAll [3] (newCqueue : Cqueue Nat Unit)).2
      { m_Std_Queue := [3], m_DisableMaxLen := false, m_maxLen := 5, m_enable := false,
        clear := none } () ()
      [Op.push 1, Op.pop 0, Op.front, Op.setMaxLen 5, Op.disableMaxLen, Op.disableQueue,
        Op.destroyAllData, Op.size]
      [(Op.push 1, Ret.pushed false), (Op.pop 0, Ret.popped false 0),
        (Op.front, Ret.value 3), (Op.setMaxLen 5, Ret.done),
        (Op.disableMaxLen, Ret.done), (Op.disableQueue, Ret.done),
        (Op.destroyAllData, Ret.done), (Op.size, Ret.count 1)] rfl).2.2 2).1⟩

/-! ## Conservation of elements -/

/-- A `pop` that returns with no other thread running either delivers the front
element and removes it, or returns `false` and changes nothing. -/
theorem pop_alone_cases {T W : Type} (s : Cqueue T W) (d : T) (r : PopOut T W)
    (h : pop [] s d = some r) :
    (r.ret = true ∧ s.m_Std_Queue = r.data :: r.next.m_Std_Queue) ∨
      (r.ret = false ∧ r.next = s) := by
  unfold pop at h
  cases hen : s.m_enable with
  | false =>
    simp only [hen, Bool.not_false, if_true, Option.some.injEq] at h
    subst h
    exact Or.inr ⟨rfl, rfl⟩
  | true =>
    cases hq : s.m_Std_Queue with
    | nil => simp [hen, hq, condWait] at h
    | cons y rest =>
      simp [hen, hq, popCheck] at h
      subst h
      exact Or.inl ⟨rfl, rfl⟩

/-- Along a sequence of `push` and `pop` calls, the elements the queue held at
the start followed by the values pushed with success are the values popped with
success followed by the elements the queue holds at the end. -/
theorem run_conserves {T W : Type} (ops : List (Op T)) (s s1 : Cqueue T W) (w w1 : W)
    (h : List (Op T × Ret T)) (hops : ∀ o ∈ ops, isPushPop o = true)
    (hr : run ops (s, w) = some (h, s1, w1)) :
    s.m_Std_Queue ++ pushedValues h = poppedValues h ++ s1.m_Std_Queue := by
  induction ops generalizing s w h with
  | nil =>
    simp only [run, Option.some.injEq, Prod.mk.injEq] at hr
    obtain ⟨h1, h2, _⟩ := hr
    subst h1 h2
    simp [pushedValues, poppedValues]
  | cons o ops ih =>
    have hops2 : ∀ o2 ∈ ops, isPushPop o2 = true := fun o2 ho2 =>
      hops o2 (List.mem_cons_of_mem _ ho2)
    have ho : isPushPop o = true := hops o (List.mem_cons_self _ _)
    simp only [run] at hr
    cases he : exec o (s, w) with
    | none => simp [he] at hr
    | some res =>
      obtain ⟨r, s2, w2⟩ := res
      simp only [he] at hr
      cases hrest : run ops (s2, w2) with
      | none => simp [hrest] at hr
      | some res2 =>
        obtain ⟨h2, s3, w3⟩ := res2
        simp only [hrest, Option.some.injEq, Prod.mk.injEq] at hr
        obtain ⟨hh, hs, hw⟩ := hr
        subst hh hs hw
        have hi := ih s2 w2 h2 hops2 hrest
        cases o with
        | push x =>
          simp only [exec, Option.some.injEq, Prod.mk.injEq] at he
          obtain ⟨e1, e2, _⟩ := he
          subst e1 e2
          cases hret : (push s x).ret with
          | false =>
            rw [push_next_of_false s x hret] at hi
            simpa [pushedValues, poppedValues] using hi
          | true =>
            rw [push_next_of_true s x hret] at hi
            simpa [pushedValues, poppedValues] using hi
        | pop d =>
          simp only [exec] at he
          cases hp : pop [] s d with
          | none => simp [hp] at he
          | some pr =>
            simp only [hp, Option.some.injEq, Prod.mk.injEq] at he
            obtain ⟨e1, e2, _⟩ := he
            subst e1 e2
            rcases pop_alone_cases s d pr hp with ⟨c1, c2⟩ | ⟨c1, c2⟩
            · rw [c2, c1]
              simpa [pushedValues, poppedValues] using hi
            · rw [c2] at hi
              rw [c1]
              simpa [pushedValues, poppedValues] using hi
        | front | size | empty | getMaxLen | disableMaxLen | disableQueue | destroyAllData
        | setMaxLen len => simp [isPushPop] at ho

/-- C8 (no element lost or duplicated). Along every sequence of `push` and `pop`
calls, taken one at a time, on a freshly constructed queue with the capacity
check turned off, the values popped with success followed by the final contents
of the queue are the values pushed with success, in the same order; so the
number of successful pops plus the final size is the number of successful
pushes. -/
theorem no_loss_no_duplication {T W : Type} (ops : List (Op T)) (s1 : Cqueue T W) (w w1 : W)
    (h : List (Op T × Ret T)) (hops : ∀ o ∈ ops, isPushPop o = true)
    (hr : run ops (disableMaxLen newCqueue, w) = some (h, s1, w1)) :
    poppedValues h ++ s1.m_Std_Queue = pushedValues h ∧
      (poppedValues h).length + size s1 = (pushedValues h).length := by
  have hc := run_conserves ops (disableMaxLen newCqueue) s1 w w1 h hops hr
  have hc2 : poppedValues h ++ s1.m_Std_Queue = pushedValues h := by
    rw [← hc]
    rfl
  refine ⟨hc2, ?_⟩
  rw [← hc2, List.length_append]
  rfl

theorem no_loss_no_duplication_witness :
    (∀ o ∈ [Op.push 1, Op.push 2, Op.pop 0, Op.push 3, Op.pop 0], isPushPop o = true) ∧
    run [Op.push 1, Op.push 2, Op.pop 0, Op.push 3, Op.pop 0]
        (disableMaxLen (newCqueue : Cqueue Nat Unit), ()) =
      some ([(Op.push 1, Ret.pushed true), (Op.push 2, Ret.pushed true),
             (Op.pop 0, Ret.popped true 1), (Op.push 3, Ret.pushed true),
             (Op.pop 0, Ret.popped true 2)],
            { m_Std_Queue := [3], m_DisableMaxLen := false, m_maxLen := 200, m_enable := true,
              clear := none }, ()) ∧
    [1, 2] ++ [3] = [1, 2, 3] ∧ 2 + 1 = 3 :=
  ⟨by simp [isPushPop], rfl,
    no_loss_no_duplication [Op.push 1, Op.push 2, Op.pop 0, Op.push 3, Op.pop 0]
      ({ m_Std_Queue := [3], m_DisableMaxLen := false, m_maxLen := 200, m_enable := true,
         clear := none } : Cqueue Nat Unit) () ()
      [(Op.push 1, Ret.pushed true), (Op.push 2, Ret.pushed true),
        (Op.pop 0, Ret.popped true 1), (Op.push 3, Ret.pushed true),
        (Op.pop 0, Ret.popped true 2)]
      (by simp [isPushPop]) rfl⟩

/-! ## Capacity settings -/

theorem destroyAllData_fields {T W : Type} (s : Cqueue T W) (w : W) :
    (destroyAllData s w).1.m_DisableMaxLen = s.m_DisableMaxLen ∧
      (destroyAllData s w).1.m_maxLen = s.m_maxLen ∧
      (destroyAllData s w).1.clear = s.clear := by
  unfold destroyAllData
  split <;> exact ⟨rfl, rfl, rfl⟩

/-- A `pop` that returns with no other thread running changes at most the
contents of the queue. -/
theorem pop_alone_next {T W : Type} (s : Cqueue T W) (d : T) (r : PopOut T W)
    (h : pop [] s d = some r) :
    r.next = { s with m_Std_Queue := r.next.m_Std_Queue } := by
  obtain ⟨q, f, m, e, c⟩ := s
  cases e with
  | false =>
    simp only [pop, Bool.not_false, if_true, Option.some.injEq] at h
    subst h
    rfl
  | true =>
    cases q with
    | nil => simp [pop, condWait] at h
    | cons y rest =>
      simp [pop, popCheck] at h
      subst h
      rfl

/-- No call turns the capacity check back on. -/
theorem exec_unenforced {T W : Type} (o : Op T) (s s1 : Cqueue T W) (w w1 : W) (r : Ret T)
    (hoff : s.m_DisableMaxLen = false) (he : exec o (s, w) = some (r, s1, w1)) :
    s1.m_DisableMaxLen = false := by
  cases o with
  | push x =>
    simp only [exec, Option.some.injEq, Prod.mk.injEq] at he
    obtain ⟨_, h2, _⟩ := he
    subst h2
    cases hret : (push s x).ret with
    | false => rw [push_next_of_false s x hret]; exact hoff
    | true => rw [push_next_of_true s x hret]; exact hoff
  | pop d =>
    simp only [exec] at he
    cases hp : pop [] s d with
    | none => simp [hp] at he
    | some pr =>
      simp only [hp, Option.some.injEq, Prod.mk.injEq] at he
      obtain ⟨_, h2, _⟩ := he
      subst h2
      rw [pop_alone_next s d pr hp]
      exact hoff
  | front =>
    simp only [exec] at he
    cases hf : front s with
    | none => simp [hf] at he
    | some y =>
      simp only [hf, Option.some.injEq, Prod.mk.injEq] at he
      obtain ⟨_, h2, _⟩ := he
      subst h2
      exact hoff
  | destroyAllData =>
    simp only [exec, Option.some.injEq, Prod.mk.injEq] at he
    obtain ⟨_, h2, _⟩ := he
    subst h2
    rw [(destroyAllData_fields s w).1]
    exact hoff
  | size | empty | getMaxLen | disableMaxLen | disableQueue | setMaxLen len =>
    simp only [exec, Option.some.injEq, Prod.mk.injEq] at he
    obtain ⟨_, h2, _⟩ := he
    subst h2
    first | exact hoff | rfl

theorem run_unenforced {T W : Type} (ops : List (Op T)) (s s1 : Cqueue T W) (w w1 : W)
    (h : List (Op T × Ret T)) (hoff : s.m_DisableMaxLen = false)
    (hr : run ops (s, w) = some (h, s1, w1)) :
    s1.m_DisableMaxLen = false := by
  induction ops generalizing s w h with
  | nil =>
    simp only [run, Option.some.injEq, Prod.mk.injEq] at hr
    obtain ⟨_, h2, _⟩ := hr
    subst h2
    exact hoff
  | cons o ops ih =>
    simp only [run] at hr
    cases he : exec o (s, w) with
    | none => simp [he] at hr
    | some res =>
      obtain ⟨r, s2, w2⟩ := res
      simp only [he] at hr
      cases hrest : run ops (s2, w2) with
      | none => simp [hrest] at hr
      | some res2 =>
        obtain ⟨h2, s3, w3⟩ := res2
        simp only [hrest, Option.some.injEq, Prod.mk.injEq] at hr
        obtain ⟨hh, hs, hw⟩ := hr
        subst hh hs hw
        exact ih s2 w2 h2 (exec_unenforced o s s2 w w2 r hoff he) hrest

/-- C11 (`disableMaxLen` is for good). After `disableMaxLen`, whatever public
calls follow (`setMaxLen` with any value included), the capacity check is still
off, and if the queue is still enabled a push returns `true` and appends its
value, whatever the size and `m_maxLen`. -/
theorem disableMaxLen_is_permanent {T W : Type} (s s1 : Cqueue T W) (w w1 : W)
    (ops : List (Op T)) (h : List (Op T × Ret T))
    (hr : run ops (disableMaxLen s, w) = some (h, s1, w1)) :
    s1.m_DisableMaxLen = false ∧
      (s1.m_enable = true → ∀ x, (push s1 x).ret = true ∧
        (push s1 x).next = { s1 with m_Std_Queue := s1.m_Std_Queue ++ [x] }) := by
  have hoff := run_unenforced ops (disableMaxLen s) s1 w w1 h rfl hr
  refine ⟨hoff, fun hen x => ?_⟩
  have hret : (push s1 x).ret = true := by
    cases hc : (push s1 x).ret
    · rcases (push_ret_false_iff s1 x).1 hc with h1 | ⟨h1, _⟩
      · rw [hen] at h1; cases h1
      · rw [hoff] at h1; cases h1
    · rfl
  exact ⟨hret, push_next_of_true s1 x hret⟩

theorem disableMaxLen_is_permanent_witness :
    run [Op.push 1, Op.setMaxLen 0, Op.push 2, Op.push 3, Op.setMaxLen (-7), Op.pop 0]
        (disableMaxLen (newCqueue : Cqueue Nat Unit), ()) =
      some ([(Op.push 1, Ret.pushed true), (Op.setMaxLen 0, Ret.done),
             (Op.push 2, Ret.pushed true), (Op.push 3, Ret.pushed true),
             (Op.setMaxLen (-7), Ret.done), (Op.pop 0, Ret.popped true 1)],
            { m_Std_Queue := [2, 3], m_DisableMaxLen := false, m_maxLen := 4294967289,
              m_enable := true, clear := none }, ()) ∧
    (push ({ m_Std_Queue := [2, 3], m_DisableMaxLen := false, m_maxLen := 4294967289,
             m_enable := true, clear := none } : Cqueue Nat Unit) 4).ret = true :=
  ⟨rfl,
    ((disableMaxLen_is_permanent (newCqueue : Cqueue Nat Unit)
      { m_Std_Queue := [2, 3], m_DisableMaxLen := false, m_maxLen := 4294967289,
        m_enable := true, clear := none } () ()
      [Op.push 1, Op.setMaxLen 0, Op.push 2, Op.push 3, Op.setMaxLen (-7), Op.pop 0]
      [(Op.push 1, Ret.pushed true), (Op.setMaxLen 0, Ret.done),
        (Op.push 2, Ret.pushed true), (Op.push 3, Ret.pushed true),
        (Op.setMaxLen (-7), Ret.done), (Op.pop 0, Ret.popped true 1)] rfl).2 rfl 4).1⟩

/-- The conversion of `setMaxLen` on the `int` values that are not negative. -/
theorem setMaxLen_nonneg {T W : Type} (s : Cqueue T W) (n : Nat) (hn : n < 2 ^ 31) :
    (setMaxLen s (n : Int)).m_maxLen = n := by
  have h : ((n : Int) % ((UINT_MOD : Nat) : Int)).toNat = n := by
    simp only [UINT_MOD]
    omega
  simp only [setMaxLen, h]

/-- On an enabled queue with the capacity check active, `push` returns `true`
exactly when the size is at most `m_maxLen`. -/
theorem push_ret_true_iff {T W : Type} (s : Cqueue T W) (x : T)
    (hen : s.m_enable = true) (henf : s.m_DisableMaxLen = true) :
    (push s x).ret = true ↔ s.m_Std_Queue.length ≤ s.m_maxLen := by
  constructor
  · intro h
    by_contra hlt
    have := (push_ret_false_iff s x).2 (Or.inr ⟨henf, by omega⟩)
    rw [this] at h
    cases h
  · intro h
    cases hc : (push s x).ret
    · rcases (push_ret_false_iff s x).1 hc with h1 | ⟨_, h2⟩
      · rw [hen] at h1; cases h1
      · omega
    · rfl

/-- C12 (`setMaxLen` is not retroactive). For every `n` that is an `int` and
not negative, `setMaxLen(n)` leaves the contents, the size, the enabled flag,
the capacity flag and the callback as they were, `getMaxLen` then returns `n`,
and on an enabled queue with the capacity check active the next push is
accepted exactly when the size is at most `n`. -/
theorem setMaxLen_not_retroactive {T W : Type} (s : Cqueue T W) (n : Nat) (x : T)
    (hn : n < 2 ^ 31) :
    (setMaxLen s (n : Int)).m_Std_Queue = s.m_Std_Queue ∧
      size (setMaxLen s (n : Int)) = size s ∧
      (setMaxLen s (n : Int)).m_enable = s.m_enable ∧
      (setMaxLen s (n : Int)).m_DisableMaxLen = s.m_DisableMaxLen ∧
      (setMaxLen s (n : Int)).clear = s.clear ∧
      getMaxLen (setMaxLen s (n : Int)) = n ∧
      (s.m_enable = true → s.m_DisableMaxLen = true →
        ((push (setMaxLen s (n : Int)) x).ret = true ↔ size s ≤ n)) := by
  refine ⟨rfl, rfl, rfl, rfl, rfl, setMaxLen_nonneg s n hn, fun hen henf => ?_⟩
  rw [push_ret_true_iff (setMaxLen s (n : Int)) x hen henf, setMaxLen_nonneg s n hn]
  rfl

theorem setMaxLen_not_retroactive_witness :
    (1 : Nat) < 2 ^ 31 ∧
      (setMaxLen (pushAll [5, 6, 7] (newCqueue : Cqueue Nat Unit)).2 (1 : Nat)).m_Std_Queue =
        [5, 6, 7] ∧
      getMaxLen (setMaxLen (pushAll [5, 6, 7] (newCqueue : Cqueue Nat Unit)).2 (1 : Nat)) = 1 :=
  ⟨by decide,
    (setMaxLen_not_retroactive (pushAll [5, 6, 7] (newCqueue : Cqueue Nat Unit)).2 1 8
      (by decide)).1,
    (setMaxLen_not_retroactive (pushAll [5, 6, 7] (newCqueue : Cqueue Nat Unit)).2 1 8
      (by decide)).2.2.2.2.2.1⟩

/-- C16 (an accepted push appends at the tail). On an enabled queue with the
capacity check off or the size at most `getMaxLen`, `push` returns `true`, the
contents become the old contents followed by the value, the size grows by one,
nothing is written to the output, and `m_maxLen`, the capacity flag, the
enabled flag and the callback are as they were. -/
theorem push_accepted_appends {T W : Type} (s : Cqueue T W) (x : T)
    (hen : s.m_enable = true)
    (hroom : s.m_DisableMaxLen = false ∨ size s ≤ getMaxLen s) :
    (push s x).ret = true ∧
      (push s x).next = { s with m_Std_Queue := s.m_Std_Queue ++ [x] } ∧
      size (push s x).next = size s + 1 ∧
      (push s x).cout = [] ∧
      (push s x).next.m_maxLen = s.m_maxLen ∧
      (push s x).next.m_DisableMaxLen = s.m_DisableMaxLen ∧
      (push s x).next.m_enable = s.m_enable ∧
      (push s x).next.clear = s.clear := by
  have hret : (push s x).ret = true := by
    cases hc : (push s x).ret
    · rcases (push_ret_false_iff s x).1 hc with h1 | ⟨h1, h2⟩
      · rw [hen] at h1; cases h1
      · rcases hroom with h3 | h3
        · rw [h3] at h1; cases h1
        · unfold size getMaxLen at h3
          omega
    · rfl
  have hn := push_next_of_true s x hret
  have hcout : (push s x).cout = [] := by
    unfold push at hret ⊢
    split
    · rfl
    · split
      · rename_i h1 h2
        simp [h1, h2] at hret
      · rfl
  refine ⟨hret, hn, ?_, hcout, ?_, ?_, ?_, ?_⟩ <;> rw [hn]
  simp [size]

theorem push_accepted_appends_witness :
    (pushAll [1, 2] (newCqueue : Cqueue Nat Unit)).2.m_enable = true ∧
      (push (pushAll [1, 2] (newCqueue : Cqueue Nat Unit)).2 3).ret = true ∧
      (push (pushAll [1, 2] (newCqueue : Cqueue Nat Unit)).2 3).next.m_Std_Queue = [1, 2, 3] :=
  ⟨rfl,
    (push_accepted_appends (pushAll [1, 2] (newCqueue : Cqueue Nat Unit)).2 3 rfl
      (Or.inr (by decide))).1,
    congrArg Cqueue.m_Std_Queue
      (push_accepted_appends (pushAll [1, 2] (newCqueue : Cqueue Nat Unit)).2 3 rfl
        (Or.inr (by decide))).2.1⟩

/-- C18 (`destroyAllData` without a callback). With no callback registered,
`destroyAllData` leaves the queue, with its contents, size and flags, and the
world as they were: the elements stay queued. -/
theorem destroyAllData_no_callback {T W : Type} (s : Cqueue T W) (w : W)
    (h : s.clear = none) :
    destroyAllData s w = (s, w) ∧ size (destroyAllData s w).1 = size s := by
  have h1 : destroyAllData s w = (s, w) := by simp only [destroyAllData, h]
  exact ⟨h1, by rw [h1]⟩

theorem destroyAllData_no_callback_witness :
    (pushAll [1, 2] (newCqueue : Cqueue Nat Unit)).2.clear = none ∧
      (destroyAllData (pushAll [1, 2] (newCqueue : Cqueue Nat Unit)).2 ()).1.m_Std_Queue =
        [1, 2] :=
  ⟨rfl,
    congrArg (fun c => c.1.m_Std_Queue)
      (destroyAllData_no_callback (pushAll [1, 2] (newCqueue : Cqueue Nat Unit)).2 () rfl).1⟩

/-- C20 (`setMaxLen` converts its `int` to `unsigned int`). For every 32-bit
`int` `len`, `getMaxLen` after `setMaxLen(len)` is `len` modulo `2 ^ 32`: `len`
itself when `len` is not negative, `2 ^ 32 + len` when it is negative (so
4294967295 for `-1`); after a negative `len` a push on an enabled queue of at
most `2 ^ 31` elements is accepted even with the capacity check active. -/
theorem setMaxLen_wraps {T W : Type} (s : Cqueue T W) (len : Int) (x : T)
    (hlo : -(2 ^ 31) ≤ len) (hhi : len < 2 ^ 31) :
    ((getMaxLen (setMaxLen s len) : Nat) : Int) = len % 2 ^ 32 ∧
      (0 ≤ len → ((getMaxLen (setMaxLen s len) : Nat) : Int) = len) ∧
      (len < 0 → ((getMaxLen (setMaxLen s len) : Nat) : Int) = 2 ^ 32 + len) ∧
      getMaxLen (setMaxLen s (-1)) = 4294967295 ∧
      (len < 0 → s.m_enable = true → size s ≤ 2 ^ 31 →
        (push (setMaxLen s len) x).ret = true) := by
  have hm : ((getMaxLen (setMaxLen s len) : Nat) : Int) = len % 2 ^ 32 := by
    simp only [getMaxLen, setMaxLen, UINT_MOD]
    omega
  refine ⟨hm, fun h0 => ?_, fun hneg => ?_, ?_, fun hneg hen hsz => ?_⟩
  · rw [hm]; omega
  · rw [hm]; omega
  · simp only [getMaxLen, setMaxLen, UINT_MOD]
    decide
  · have hbig : (2 : Int) ^ 31 ≤ ((getMaxLen (setMaxLen s len) : Nat) : Int) := by
      rw [hm]; omega
    cases hc : (push (setMaxLen s len) x).ret
    · rcases (push_ret_false_iff (setMaxLen s len) x).1 hc with h1 | ⟨_, h2⟩
      · rw [show (setMaxLen s len).m_enable = s.m_enable from rfl, hen] at h1
        cases h1
      · have h3 : (setMaxLen s len).m_Std_Queue.length = size s := rfl
        have h4 : (setMaxLen s len).m_maxLen = getMaxLen (setMaxLen s len) := rfl
        rw [h3, h4] at h2
        omega
    · rfl

theorem setMaxLen_wraps_witness :
    (-(2 ^ 31) : Int) ≤ -3 ∧ (-3 : Int) < 2 ^ 31 ∧
      ((getMaxLen (setMaxLen (newCqueue : Cqueue Nat Unit) (-3)) : Nat) : Int) = 2 ^ 32 + -3 ∧
      (push (setMaxLen (newCqueue : Cqueue Nat Unit) (-3)) 9).ret = true :=
  ⟨by decide, by decide,
    (setMaxLen_wraps (newCqueue : Cqueue Nat Unit) (-3) 9 (by decide) (by decide)).2.2.1
      (by decide),
    (setMaxLen_wraps (newCqueue : Cqueue Nat Unit) (-3) 9 (by decide) (by decide)).2.2.2.2
      (by decide) rfl (by decide)⟩

/-! ## front -/

theorem run_fronts {T W : Type} (s : Cqueue T W) (w : W) (x : T) (rest : List T)
    (hq : s.m_Std_Queue = x :: rest) (n : Nat) :
    run (List.replicate n Op.front) (s, w) =
      some (List.replicate n (Op.front, Ret.value x), s, w) := by
  induction n with
  | zero => rfl
  | succ n ih =>
    simp only [List.replicate_succ, run, exec, front, hq, List.head?_cons, ih]

/-- C13 (`front` peeks). On a queue with contents `x :: rest`, `front` returns
`x` and leaves the queue and the world as they were, so any number of calls in
a row all return `x`, and a `pop` that follows on an enabled queue returns
`true`, delivers `x` and leaves `rest`. -/
theorem front_peeks {T W : Type} (s : Cqueue T W) (w : W) (x : T) (rest : List T)
    (hq : s.m_Std_Queue = x :: rest) :
    front s = some x ∧
      exec Op.front (s, w) = some (Ret.value x, s, w) ∧
      (∀ n, run (List.replicate n Op.front) (s, w) =
        some (List.replicate n (Op.front, Ret.value x), s, w)) ∧
      (s.m_enable = true → ∀ wakeups d,
        pop wakeups s d =
          some { ret := true, data := x, next := { s with m_Std_Queue := rest } }) := by
  refine ⟨by simp [front, hq], by simp [exec, front, hq], run_fronts s w x rest hq,
    fun hen wakeups d => ?_⟩
  simp [pop, popCheck, hen, hq]

theorem front_peeks_witness :
    (pushAll [4, 5] (newCqueue : Cqueue Nat Unit)).2.m_Std_Queue = 4 :: [5] ∧
      front (pushAll [4, 5] (newCqueue : Cqueue Nat Unit)).2 = some 4 :=
  ⟨rfl, (front_peeks (pushAll [4, 5] (newCqueue : Cqueue Nat Unit)).2 () 4 [5] rfl).1⟩

/-- C14 (`front` on an empty queue), evaluated on the code: `front` makes no
test for emptiness, it is the front of the backing store whatever the contents;
on a freshly constructed queue that read is undefined, and the call has no
defined result. -/
theorem front_empty_unguarded :
    (∀ s : Cqueue Nat Unit, front s = s.m_Std_Queue.head?) ∧
      empty (newCqueue : Cqueue Nat Unit) = true ∧
      front (newCqueue : Cqueue Nat Unit) = none ∧
      exec Op.front ((newCqueue : Cqueue Nat Unit), ()) = none :=
  ⟨fun _ => rfl, rfl, rfl, rfl⟩

/-! ## The check after the wait -/

/-- The wait ends only in a state in which its predicate holds. -/
theorem condWait_pred {T W : Type} (wakeups : List (Cqueue T W)) (s1 : Cqueue T W)
    (h : condWait wakeups = some s1) : s1 ∈ wakeups ∧ waitPred s1 = true := by
  induction wakeups with
  | nil => simp [condWait] at h
  | cons a rest ih =>
    simp only [condWait] at h
    by_cases hp : waitPred a = true
    · simp only [hp, if_true, Option.some.injEq] at h
      subst h
      exact ⟨List.mem_cons_self _ _, hp⟩
    · simp only [hp] at h
      exact ⟨List.mem_cons_of_mem _ (ih h).1, (ih h).2⟩

theorem popCheck_ret_iff {T W : Type} (s : Cqueue T W) (d : T) :
    (popCheck s d).ret = true ↔ (s.m_enable = true ∧ s.m_Std_Queue ≠ []) := by
  obtain ⟨q, f, m, e, c⟩ := s
  cases e <;> cases q <;> simp [popCheck]

theorem popCheck_of_false {T W : Type} (s : Cqueue T W) (d : T)
    (h : s.m_enable = false ∨ s.m_Std_Queue = []) :
    popCheck s d = { ret := false, data := d, next := s } := by
  obtain ⟨q, f, m, e, c⟩ := s
  cases e <;> cases q <;> simp [popCheck] at h ⊢

/-- C17 (the double check of `pop`). Let `pop` be called on an enabled queue
and let `sf` be the state at its final check: the state at entry when the queue
is not empty, else the state in which the wait ends, a state in which the queue
is disabled or not empty. Then `pop` returns, and it returns `true` exactly when
`sf` is enabled and not empty; the out-parameter then receives the front
element of `sf` and exactly that element is removed. If `sf` is disabled (the
wake-up came from a shutdown) or empty, `pop` returns `false` and leaves the
out-parameter and the queue as they were; so no `pop` returns `true` on an
empty queue. -/
theorem pop_double_check {T W : Type} (wakeups : List (Cqueue T W)) (s sf : Cqueue T W) (d : T)
    (hen : s.m_enable = true)
    (hfin : (s.m_Std_Queue ≠ [] ∧ sf = s) ∨
      (s.m_Std_Queue = [] ∧ condWait wakeups = some sf)) :
    pop wakeups s d = some (popCheck sf d) ∧
      (s.m_Std_Queue = [] → waitPred sf = true) ∧
      ((popCheck sf d).ret = true ↔ (sf.m_enable = true ∧ sf.m_Std_Queue ≠ [])) ∧
      (∀ x rest, sf.m_enable = true → sf.m_Std_Queue = x :: rest →
        popCheck sf d = { ret := true, data := x, next := { sf with m_Std_Queue := rest } }) ∧
      ((sf.m_enable = false ∨ sf.m_Std_Queue = []) →
        popCheck sf d = { ret := false, data := d, next := sf }) := by
  refine ⟨?_, ?_, popCheck_ret_iff sf d, ?_, popCheck_of_false sf d⟩
  · rcases hfin with ⟨hne, hsf⟩ | ⟨he, hw⟩
    · subst hsf
      cases hq : sf.m_Std_Queue with
      | nil => exact absurd hq hne
      | cons y rest => simp [pop, hen, hq]
    · simp [pop, hen, he, hw]
  · intro he
    rcases hfin with ⟨hne, _⟩ | ⟨_, hw⟩
    · exact absurd he hne
    · exact (condWait_pred wakeups sf hw).2
  · intro x rest h1 h2
    obtain ⟨q, f, m, e, c⟩ := sf
    simp only at h1 h2
    subst h1 h2
    rfl

theorem pop_double_check_witness :
    (newCqueue : Cqueue Nat Unit).m_enable = true ∧
      condWait [(newCqueue : Cqueue Nat Unit), disableQueue newCqueue] =
        some (disableQueue newCqueue) ∧
      pop [(newCqueue : Cqueue Nat Unit), disableQueue newCqueue] newCqueue 0 =
        some { ret := false, data := 0, next := disableQueue newCqueue } :=
  ⟨rfl, rfl,
    (pop_double_check [(newCqueue : Cqueue Nat Unit), disableQueue newCqueue] newCqueue
      (disableQueue newCqueue) 0 rfl (Or.inr ⟨rfl, rfl⟩)).1⟩

/-! ## The occupancy bound -/

/-- With the capacity check active, `push`, `pop` and `disableQueue` keep the
size at most `m_maxLen + 1` and leave the capacity settings alone. -/
theorem exec_bounded {T W : Type} (o : Op T) (s s1 : Cqueue T W) (w w1 : W) (r : Ret T)
    (N : Nat) (hop : isPushPopDisable o = true)
    (henf : s.m_DisableMaxLen = true) (hN : s.m_maxLen = N)
    (hsz : s.m_Std_Queue.length ≤ N + 1) (he : exec o (s, w) = some (r, s1, w1)) :
    s1.m_DisableMaxLen = true ∧ s1.m_maxLen = N ∧ s1.m_Std_Queue.length ≤ N + 1 := by
  cases o with
  | push x =>
    simp only [exec, Option.some.injEq, Prod.mk.injEq] at he
    obtain ⟨_, h2, _⟩ := he
    subst h2
    cases hret : (push s x).ret with
    | false =>
      rw [push_next_of_false s x hret]
      exact ⟨henf, hN, hsz⟩
    | true =>
      have hle := (push_ret_true_iff s x (push_enable_of_true s x hret) henf).1 hret
      rw [push_next_of_true s x hret]
      refine ⟨henf, hN, ?_⟩
      simp only [List.length_append, List.length_singleton]
      omega
  | pop d =>
    simp only [exec] at he
    cases hp : pop [] s d with
    | none => simp [hp] at he
    | some pr =>
      simp only [hp, Option.some.injEq, Prod.mk.injEq] at he
      obtain ⟨_, h2, _⟩ := he
      subst h2
      have hnext := pop_alone_next s d pr hp
      refine ⟨by rw [hnext]; exact henf, by rw [hnext]; exact hN, ?_⟩
      rcases pop_alone_cases s d pr hp with ⟨_, c2⟩ | ⟨_, c2⟩
      · rw [c2, List.length_cons] at hsz
        omega
      · rw [c2]
        exact hsz
  | disableQueue =>
    simp only [exec, Option.some.injEq, Prod.mk.injEq] at he
    obtain ⟨_, h2, _⟩ := he
    subst h2
    exact ⟨henf, hN, hsz⟩
  | front | size | empty | getMaxLen | disableMaxLen | destroyAllData | setMaxLen len =>
    simp [isPushPopDisable] at hop

theorem run_bounded {T W : Type} (ops : List (Op T)) (s s1 : Cqueue T W) (w w1 : W)
    (h : List (Op T × Ret T)) (N : Nat) (hops : ∀ o ∈ ops, isPushPopDisable o = true)
    (henf : s.m_DisableMaxLen = true) (hN : s.m_maxLen = N)
    (hsz : s.m_Std_Queue.length ≤ N + 1) (hr : run ops (s, w) = some (h, s1, w1)) :
    s1.m_Std_Queue.length ≤ N + 1 := by
  induction ops generalizing s w h with
  | nil =>
    simp only [run, Option.some.injEq, Prod.mk.injEq] at hr
    obtain ⟨_, h2, _⟩ := hr
    subst h2
    exact hsz
  | cons o ops ih =>
    simp only [run] at hr
    cases he : exec o (s, w) with
    | none => simp [he] at hr
    | some res =>
      obtain ⟨r, s2, w2⟩ := res
      simp only [he] at hr
      cases hrest : run ops (s2, w2) with
      | none => simp [hrest] at hr
      | some res2 =>
        obtain ⟨h2, s3, w3⟩ := res2
        simp only [hrest, Option.some.injEq, Prod.mk.injEq] at hr
        obtain ⟨hh, hs, hw⟩ := hr
        subst hh hs hw
        obtain ⟨b1, b2, b3⟩ := exec_bounded o s s2 w w2 r N
          (hops o (List.mem_cons_self _ _)) henf hN hsz he
        exact ih s2 w2 h2 (fun o2 ho2 => hops o2 (List.mem_cons_of_mem _ ho2)) b1 b2 b3 hrest

/-- C19 (effective occupancy bound). From an empty queue with the capacity
check active and `getMaxLen = N`, every sequence of `push`, `pop` and
`disableQueue` calls ends with `size` at most `N + 1`; and when the queue is
enabled, `N + 1` pushes reach the size `N + 1`. -/
theorem occupancy_bound {T W : Type} (s0 : Cqueue T W) (N : Nat) (w : W) (x : T)
    (hempty : s0.m_Std_Queue = []) (henf : s0.m_DisableMaxLen = true)
    (hN : getMaxLen s0 = N) :
    (∀ ops h s1 w1, (∀ o ∈ ops, isPushPopDisable o = true) →
        run ops (s0, w) = some (h, s1, w1) → size s1 ≤ N + 1) ∧
      (s0.m_enable = true →
        ∃ h s1, (∀ o ∈ (List.replicate (N + 1) x).map Op.push, isPushPopDisable o = true) ∧
          run ((List.replicate (N + 1) x).map Op.push) (s0, w) = some (h, s1, w) ∧
          size s1 = N + 1) := by
  constructor
  · intro ops h s1 w1 hops hr
    exact run_bounded ops s0 s1 w w1 h N hops henf hN (by rw [hempty]; simp) hr
  · intro hen
    obtain ⟨h, hh⟩ := run_pushes (List.replicate (N + 1) x) s0 w
    refine ⟨h, _, ?_, hh, ?_⟩
    · intro o ho
      obtain ⟨y, _, hy⟩ := List.mem_map.1 ho
      subst hy
      rfl
    · unfold getMaxLen at hN
      rw [pushAll_enforced _ _ hen henf, hempty, hN]
      simp [size]

theorem occupancy_bound_witness :
    (setMaxLen (newCqueue : Cqueue Nat Unit) 1).m_Std_Queue = [] ∧
      (setMaxLen (newCqueue : Cqueue Nat Unit) 1).m_DisableMaxLen = true ∧
      getMaxLen (setMaxLen (newCqueue : Cqueue Nat Unit) 1) = 1 ∧
      run [Op.push 1, Op.push 2, Op.push 3, Op.pop 0, Op.push 4, Op.disableQueue, Op.push 5]
          (setMaxLen (newCqueue : Cqueue Nat Unit) 1, ()) =
        some ([(Op.push 1, Ret.pushed true), (Op.push 2, Ret.pushed true),
               (Op.push 3, Ret.pushed false), (Op.pop 0, Ret.popped true 1),
               (Op.push 4, Ret.pushed true), (Op.disableQueue, Ret.done),
               (Op.push 5, Ret.pushed false)],
              { m_Std_Queue := [2, 4], m_DisableMaxLen := true, m_maxLen := 1,
                m_enable := false, clear := none }, ()) ∧
      size ({ m_Std_Queue := [2, 4], m_DisableMaxLen := true, m_maxLen := 1,
              m_enable := false, clear := none } : Cqueue Nat Unit) ≤ 1 + 1 :=
  ⟨rfl, rfl, by decide, rfl,
    (occupancy_bound (setMaxLen (newCqueue : Cqueue Nat Unit) 1) 1 () 0 rfl rfl (by decide)).1
      [Op.push 1, Op.push 2, Op.push 3, Op.pop 0, Op.push 4, Op.disableQueue, Op.push 5]
      [(Op.push 1, Ret.pushed true), (Op.push 2, Ret.pushed true),
        (Op.push 3, Ret.pushed false), (Op.pop 0, Ret.popped true 1),
        (Op.push 4, Ret.pushed true), (Op.disableQueue, Ret.done),
        (Op.push 5, Ret.pushed false)]
      { m_Std_Queue := [2, 4], m_DisableMaxLen := true, m_maxLen := 1, m_enable := false,
        clear := none } () (by simp [isPushPopDisable]) rfl⟩

/-! ## Invariant I1, with the bound the code keeps -/

theorem isPushPopDisable_of_isPushPop {T : Type} (o : Op T) (h : isPushPop o = true) :
    isPushPopDisable o = true := by
  cases o <;> first | rfl | simp [isPushPop] at h

/-- Along `push`, `pop` and `disableQueue` calls the capacity check stays
active, `m_maxLen` keeps its value and the size stays at most `m_maxLen + 1`. -/
theorem run_keeps_bound {T W : Type} (ops : List (Op T)) (s s1 : Cqueue T W) (w w1 : W)
    (h : List (Op T × Ret T)) (N : Nat) (hops : ∀ o ∈ ops, isPushPopDisable o = true)
    (henf : s.m_DisableMaxLen = true) (hN : s.m_maxLen = N)
    (hsz : s.m_Std_Queue.length ≤ N + 1) (hr : run ops (s, w) = some (h, s1, w1)) :
    s1.m_DisableMaxLen = true ∧ s1.m_maxLen = N ∧ s1.m_Std_Queue.length ≤ N + 1 := by
  induction ops generalizing s w h with
  | nil =>
    simp only [run, Option.some.injEq, Prod.mk.injEq] at hr
    obtain ⟨_, h2, _⟩ := hr
    subst h2
    exact ⟨henf, hN, hsz⟩
  | cons o ops ih =>
    simp only [run] at hr
    cases he : exec o (s, w) with
    | none => simp [he] at hr
    | some res =>
      obtain ⟨r, s2, w2⟩ := res
      simp only [he] at hr
      cases hrest : run ops (s2, w2) with
      | none => simp [hrest] at hr
      | some res2 =>
        obtain ⟨h2, s3, w3⟩ := res2
        simp only [hrest, Option.some.injEq, Prod.mk.injEq] at hr
        obtain ⟨hh, hs, hw⟩ := hr
        subst hh hs hw
        obtain ⟨b1, b2, b3⟩ := exec_bounded o s s2 w w2 r N
          (hops o (List.mem_cons_self _ _)) henf hN hsz he
        exact ih s2 w2 h2 (fun o2 ho2 => hops o2 (List.mem_cons_of_mem _ ho2)) b1 b2 b3 hrest

/-- C3 (invariant I1), as the code keeps it: in every state reached from a
freshly constructed queue by a sequence of `push` and `pop` calls, taken one at
a time, the capacity check is still active, `getMaxLen` is still 200, and the
queue holds at most `getMaxLen + 1` elements. -/
theorem size_le_maxLen_succ {T W : Type} (ops : List (Op T)) (s1 : Cqueue T W) (w w1 : W)
    (h : List (Op T × Ret T)) (hops : ∀ o ∈ ops, isPushPop o = true)
    (hr : run ops (newCqueue, w) = some (h, s1, w1)) :
    s1.m_DisableMaxLen = true ∧ getMaxLen s1 = 200 ∧ size s1 ≤ getMaxLen s1 + 1 := by
  obtain ⟨b1, b2, b3⟩ := run_keeps_bound ops newCqueue s1 w w1 h 200
    (fun o ho => isPushPopDisable_of_isPushPop o (hops o ho)) rfl rfl
    (Nat.zero_le _) hr
  refine ⟨b1, b2, ?_⟩
  unfold size getMaxLen
  rw [b2]
  exact b3

theorem size_le_maxLen_succ_witness :
    (∀ o ∈ [Op.push 1, Op.push 2, Op.pop 0, Op.push 3], isPushPop o = true) ∧
      run [Op.push 1, Op.push 2, Op.pop 0, Op.push 3] ((newCqueue : Cqueue Nat Unit), ()) =
        some ([(Op.push 1, Ret.pushed true), (Op.push 2, Ret.pushed true),
               (Op.pop 0, Ret.popped true 1), (Op.push 3, Ret.pushed true)],
              { m_Std_Queue := [2, 3], m_DisableMaxLen := true, m_maxLen := 200,
                m_enable := true, clear := none }, ()) ∧
      size ({ m_Std_Queue := [2, 3], m_DisableMaxLen := true, m_maxLen := 200,
              m_enable := true, clear := none } : Cqueue Nat Unit) ≤
        getMaxLen ({ m_Std_Queue := [2, 3], m_DisableMaxLen := true, m_maxLen := 200,
                     m_enable := true, clear := none } : Cqueue Nat Unit) + 1 :=
  ⟨by simp [isPushPop], rfl,
    (size_le_maxLen_succ [Op.push 1, Op.push 2, Op.pop 0, Op.push 3]
      ({ m_Std_Queue := [2, 3], m_DisableMaxLen := true, m_maxLen := 200, m_enable := true,
         clear := none } : Cqueue Nat Unit) () ()
      [(Op.push 1, Ret.pushed true), (Op.push 2, Ret.pushed true),
        (Op.pop 0, Ret.popped true 1), (Op.push 3, Ret.pushed true)]
      (by simp [isPushPop]) rfl).2.2⟩

end BlockQueue
